import Mathlib

/-!
Shallow embedding of the queuectl job-queue engine (src/backend/queuectl.js).

Timestamps are modelled as rationals (seconds); ISO-8601 strings produced by
the program compare lexicographically exactly as the instants they denote, so
a numeric model is faithful.  The jobs table is a list of rows; SQL UPDATE
statements become maps over the list with the statement's WHERE clause as the
row predicate, and the reported change count is the number of matched rows.
Configuration reads are modelled at the parse boundary: an
argument of type Option carries the parsed value of the stored string, with
none when the key is absent (or, where noted, unparseable).
-/

/-- Job states, from the CHECK-free TEXT column `state`. -/
inductive JState where
  | pending
  | processing
  | failed
  | completed
  | dead
deriving DecidableEq, Repr

/-- A row of the jobs table (schema in initDb, queuectl.js lines 21-31). -/
structure Job where
  id : String
  command : String
  state : JState
  attempts : Nat
  max_retries : Int
  created_at : ℚ
  updated_at : ℚ
  available_at : Option ℚ
  last_error : Option String
deriving DecidableEq, Repr

/-- Effective backoff base: the program computes
parseFloat(getConfig(db, backoff-base, 2)) with a JS falsy-or fallback to 2,
so an absent key, an unparseable value (NaN) or a stored 0 all yield 2.
The argument is none when the key is absent or unparseable, some v when the
stored string parses to v. -/
def effBackoffBase (cfg : Option ℚ) : ℚ :=
  match cfg with
  | none => 2
  | some v => if v = 0 then 2 else v

/-- Modelled from the spec: the backoff base as the specification words it,
namely the value read from Configuration at that moment, defaulting to 2 only
when the key is absent. -/
def specBackoffBase (cfg : Option ℚ) : ℚ :=
  cfg.getD 2

/-- Failure transition of the worker loop (queuectl.js lines 295-309):
post-increment attempts; at or above max_retries the row becomes dead,
otherwise failed with available_at = now + base ^ attempts seconds.
last_error is recorded in both branches. -/
def failureUpdate (cfg : Option ℚ) (now : ℚ) (lastErr : String) (j : Job) : Job :=
  let attempts := j.attempts + 1
  if (attempts : Int) ≥ j.max_retries then
    { j with state := .dead, attempts := attempts, updated_at := now,
             last_error := some lastErr }
  else
    let delay := (effBackoffBase cfg) ^ attempts
    { j with state := .failed, attempts := attempts,
             available_at := some (now + delay), updated_at := now,
             last_error := some lastErr }

/-- Success transition of the worker loop (queuectl.js lines 291-294):
state becomes completed, updated_at refreshed, nothing else changes. -/
def successUpdate (now : ℚ) (j : Job) : Job :=
  { j with state := .completed, updated_at := now }

/-- SQL predicate datetime(available_at) <= datetime(now): NULL makes the
comparison NULL, hence false. -/
def availableLe (j : Job) (now : ℚ) : Bool :=
  match j.available_at with
  | none => false
  | some t => decide (t ≤ now)

/-- Claim eligibility (SELECT in claimTx, queuectl.js lines 256-260):
pending, or failed with available_at at or before now. -/
def eligible (now : ℚ) (j : Job) : Bool :=
  j.state == .pending || (j.state == .failed && availableLe j now)

/-- ORDER BY created_at LIMIT 1 over a list in insertion (rowid) order:
the first row among those of minimal created_at. -/
def minByCreated : List Job → Option Job
  | [] => none
  | j :: rest =>
    match minByCreated rest with
    | none => some j
    | some b => if b.created_at < j.created_at then some b else some j

/-- WHERE guard of the conditional claim UPDATE: state IN (pending, failed). -/
def claimGuard (j : Job) : Bool :=
  j.state == .pending || j.state == .failed

/-- Row effect of the claim UPDATE (queuectl.js lines 262-265). -/
def claimRow (now : ℚ) (cid : String) (j : Job) : Job :=
  if j.id == cid && claimGuard j then
    { j with state := .processing, updated_at := now }
  else j

/-- The claim transaction (queuectl.js lines 254-268): select the oldest
eligible row; if none, report no job; otherwise run the guarded UPDATE and
return the candidate id exactly when it changed one row. -/
def claimTx (now : ℚ) (jobs : List Job) : List Job × Option String :=
  match minByCreated (jobs.filter (eligible now)) with
  | none => (jobs, none)
  | some c =>
    let updated := jobs.map (claimRow now c.id)
    let changes := jobs.countP (fun j => j.id == c.id && claimGuard j)
    if changes = 1 then (updated, some c.id) else (updated, none)

/-- Post-execution update applied to the claimed row, by exit code
(queuectl.js lines 291-309). -/
def execUpdate (cfg : Option ℚ) (now : ℚ) (code : Int) (lastErr : String) (j : Job) : Job :=
  if code = 0 then successUpdate now j else failureUpdate cfg now lastErr j

/-- One worker-loop iteration that claims a job and, if one was claimed,
executes it and persists the resulting state (queuectl.js lines 270-310);
code is the exit code of the command, lastErr the diagnostic the loop
would record on failure. -/
def workerStep (cfg : Option ℚ) (now : ℚ) (code : Int) (lastErr : String)
    (jobs : List Job) : List Job :=
  match claimTx now jobs with
  | (js, none) => js
  | (js, some cid) =>
    js.map (fun j => if j.id == cid then execUpdate cfg now code lastErr j else j)

/-- Staleness predicate of the recovery scan (queuectl.js line 324):
processing and updated_at at or before the threshold. -/
def staleP (threshold : ℚ) (j : Job) : Bool :=
  j.state == .processing && decide (j.updated_at ≤ threshold)

/-- Per-row effect of the recovery scan (queuectl.js lines 330-344):
post-increment attempts; at or above max_retries the row becomes dead with
the synthetic last_error, otherwise failed with a fresh available_at — the
failed-branch UPDATE statement does not touch last_error. -/
def recoverJob (cfg : Option ℚ) (now : ℚ) (j : Job) : Job :=
  let attempts := j.attempts + 1
  if (attempts : Int) ≥ j.max_retries then
    { j with state := .dead, attempts := attempts, updated_at := now,
             last_error := some "stale-processing-recovered" }
  else
    let delay := (effBackoffBase cfg) ^ attempts
    { j with state := .failed, attempts := attempts,
             available_at := some (now + delay), updated_at := now }

/-- The recovery scan over a precomputed staleness threshold: every
processing row with updated_at at or before the threshold undergoes the
failure transition (queuectl.js lines 324-344). -/
def recoverScan (cfg : Option ℚ) (now threshold : ℚ) (jobs : List Job) : List Job :=
  jobs.map (fun j => if staleP threshold j then recoverJob cfg now j else j)

/-- The recover command (queuectl.js lines 321-346): the threshold is
now minus the staleSeconds option, computed before the scan (line 323). -/
def recover (cfg : Option ℚ) (now staleSeconds : ℚ) (jobs : List Job) : List Job :=
  recoverScan cfg now (now - staleSeconds) jobs

/-- Row effect of the DLQ-retry UPDATE (queuectl.js lines 163-164): matched
by id only, with no condition on the current state. -/
def dlqRetryRow (now : ℚ) (rid : String) (j : Job) : Job :=
  if j.id == rid then
    { j with attempts := 0, state := .pending, updated_at := now,
             available_at := some now }
  else j

/-- The dlq retry command (queuectl.js lines 156-167): a point lookup by id
reports not-found (none) without mutation, otherwise the unconditional
reset UPDATE runs. -/
def dlqRetry (now : ℚ) (rid : String) (jobs : List Job) : Option (List Job) :=
  if jobs.any (fun j => j.id == rid) then
    some (jobs.map (dlqRetryRow now rid))
  else none

/-- Submission payload, after JSON parsing (queuectl.js lines 78-88): the
engine reads fields id, command and max_retries; none models an absent
field. -/
structure Payload where
  id : Option String
  command : Option String
  max_retries : Option Int
deriving DecidableEq, Repr

/-- The id the enqueue command stores (queuectl.js line 78): the payload id
when JS-truthy, else the generated uuid, which genId stands for. -/
def enqueueId (genId : String) (p : Payload) : String :=
  match p.id with
  | none => genId
  | some s => if s = "" then genId else s

/-- The max_retries the enqueue command stores (queuectl.js line 84): the
payload value when JS-truthy (nonzero), else the parsed configured
max-retries key, which getConfig defaults to the string 3 when absent. -/
def enqueueMR (cfgMR : Option Int) (p : Payload) : Int :=
  match p.max_retries with
  | none => cfgMR.getD 3
  | some n => if n = 0 then cfgMR.getD 3 else n

/-- The enqueue command (queuectl.js lines 69-97).  cfgMR is the parsed
value of the stored max-retries key, none when the key is absent.  A
JS-falsy command (absent or the empty string) is a validation error; a
duplicate primary key makes the INSERT fail; otherwise one pending row with
attempts 0 is appended.  The second component carries the error message,
none on success. -/
def enqueue (cfgMR : Option Int) (now : ℚ) (genId : String) (p : Payload)
    (jobs : List Job) : List Job × Option String :=
  match p.command with
  | none => (jobs, some "Job must include command")
  | some c =>
    if c = "" then (jobs, some "Job must include command")
    else if jobs.any (fun j => j.id == enqueueId genId p) then (jobs, some "Insert failed")
    else
      (jobs ++ [{ id := enqueueId genId p, command := c, state := .pending,
                  attempts := 0, max_retries := enqueueMR cfgMR p,
                  created_at := now, updated_at := now,
                  available_at := some now, last_error := none }], none)

/-- Terminal states of the lifecycle. -/
def terminal (j : Job) : Bool :=
  j.state == .completed || j.state == .dead

/-- n successive atomic claim transactions against the shared table,
returning the final table and each round's outcome in order.  SQLite
serialises transactions, so any interleaving of n concurrent claim
attempts is one of these serial orders. -/
def claimRounds (now : ℚ) : Nat → List Job → List Job × List (Option String)
  | 0, jobs => (jobs, [])
  | n + 1, jobs =>
    let r := claimTx now jobs
    let rest := claimRounds now n r.1
    (rest.1, r.2 :: rest.2)

/-! Concrete fixture rows and payloads used to exercise the operations on
closed inputs. -/

/-- A freshly enqueued pending job. -/
def jPend : Job :=
  { id := "a", command := "echo hi", state := .pending, attempts := 0,
    max_retries := 3, created_at := 0, updated_at := 0,
    available_at := some 0, last_error := none }

/-- A failed job whose retry window opens only at time 2. -/
def jFailFuture : Job :=
  { id := "b", command := "exit 1", state := .failed, attempts := 1,
    max_retries := 3, created_at := 1, updated_at := 0,
    available_at := some 2, last_error := some "error" }

/-- A processing job last touched at time 0. -/
def jProc : Job :=
  { id := "c", command := "sleep 2", state := .processing, attempts := 0,
    max_retries := 3, created_at := 0, updated_at := 0,
    available_at := some 0, last_error := none }

/-- A completed job. -/
def jDone : Job :=
  { id := "d", command := "echo done", state := .completed, attempts := 0,
    max_retries := 3, created_at := 0, updated_at := 0,
    available_at := some 0, last_error := none }

/-- A dead job with an exhausted retry budget. -/
def jDead : Job :=
  { id := "e", command := "exit 1", state := .dead, attempts := 3,
    max_retries := 3, created_at := 0, updated_at := 0,
    available_at := some 0, last_error := some "error" }

/-- A submission payload with no command field. -/
def pNoCmd : Payload := { id := none, command := none, max_retries := none }

/-- A well-formed submission payload that omits max_retries. -/
def pPlain : Payload := { id := some "p", command := some "echo hi", max_retries := none }

/-! Basic facts about the row predicates and row transformers. -/

theorem claimGuard_of_eligible {now : ℚ} {j : Job} (h : eligible now j = true) :
    claimGuard j = true := by
  simp only [eligible, Bool.or_eq_true, Bool.and_eq_true, beq_iff_eq] at h
  rcases h with h | ⟨h, _⟩ <;> simp [claimGuard, h]

theorem claimGuard_of_terminal {j : Job} (h : terminal j = true) :
    claimGuard j = false := by
  simp only [terminal, Bool.or_eq_true, beq_iff_eq] at h
  rcases h with h | h <;> simp [claimGuard, h]

theorem eligible_of_terminal {now : ℚ} {j : Job} (h : terminal j = true) :
    eligible now j = false := by
  simp only [terminal, Bool.or_eq_true, beq_iff_eq] at h
  rcases h with h | h <;> simp [eligible, h]

theorem eligible_processing {now : ℚ} {j : Job} (h : j.state = .processing) :
    eligible now j = false := by
  simp [eligible, h]

theorem staleP_of_terminal {t : ℚ} {j : Job} (h : terminal j = true) :
    staleP t j = false := by
  simp only [terminal, Bool.or_eq_true, beq_iff_eq] at h
  rcases h with h | h <;> simp [staleP, h]

theorem staleP_recoverJob (cfg : Option ℚ) (now t : ℚ) (j : Job) :
    staleP t (recoverJob cfg now j) = false := by
  by_cases h : (((j.attempts + 1 : Nat) : Int) ≥ j.max_retries)
  · simp only [recoverJob]
    rw [if_pos h]
    simp [staleP]
  · simp only [recoverJob]
    rw [if_neg h]
    simp [staleP]

theorem claimRow_of_terminal {now : ℚ} {cid : String} {j : Job}
    (h : terminal j = true) : claimRow now cid j = j := by
  simp [claimRow, claimGuard_of_terminal h]

theorem claimRow_attempts (now : ℚ) (cid : String) (j : Job) :
    (claimRow now cid j).attempts = j.attempts := by
  unfold claimRow
  split <;> rfl

theorem claimRow_state_of_guard {now : ℚ} {cid : String} {j : Job}
    (hid : j.id = cid) (hg : claimGuard j = true) :
    claimRow now cid j = { j with state := .processing, updated_at := now } := by
  simp [claimRow, hid, hg]

/-! Facts about the oldest-first selection. -/

theorem minByCreated_eq_none {l : List Job} : minByCreated l = none ↔ l = [] := by
  cases l with
  | nil => simp [minByCreated]
  | cons j rest =>
    simp only [minByCreated]
    cases h : minByCreated rest with
    | none => simp
    | some m => by_cases hlt : m.created_at < j.created_at <;> simp [hlt]

theorem minByCreated_mem : ∀ {l : List Job} {b : Job}, minByCreated l = some b → b ∈ l := by
  intro l
  induction l with
  | nil => intro b h; simp [minByCreated] at h
  | cons j rest ih =>
    intro b h
    simp only [minByCreated] at h
    cases hr : minByCreated rest with
    | none =>
      rw [hr] at h
      simp only [Option.some.injEq] at h
      subst h
      exact List.mem_cons_self _ _
    | some m =>
      rw [hr] at h
      by_cases hlt : m.created_at < j.created_at
      · simp only [if_pos hlt, Option.some.injEq] at h
        subst h
        exact List.mem_cons_of_mem _ (ih hr)
      · simp only [if_neg hlt, Option.some.injEq] at h
        subst h
        exact List.mem_cons_self _ _

theorem minByCreated_le : ∀ {l : List Job} {b : Job}, minByCreated l = some b →
    ∀ x ∈ l, b.created_at ≤ x.created_at := by
  intro l
  induction l with
  | nil => intro b h; simp [minByCreated] at h
  | cons j rest ih =>
    intro b h x hx
    simp only [minByCreated] at h
    cases hr : minByCreated rest with
    | none =>
      rw [hr] at h
      simp only [Option.some.injEq] at h
      subst h
      have hnil : rest = [] := minByCreated_eq_none.mp hr
      subst hnil
      rcases List.mem_singleton.mp hx with rfl
      exact le_refl _
    | some m =>
      rw [hr] at h
      by_cases hlt : m.created_at < j.created_at
      · simp only [if_pos hlt, Option.some.injEq] at h
        subst h
        rcases List.mem_cons.mp hx with rfl | hx2
        · exact le_of_lt hlt
        · exact ih hr x hx2
      · simp only [if_neg hlt, Option.some.injEq] at h
        subst h
        rcases List.mem_cons.mp hx with rfl | hx2
        · exact le_refl _
        · exact le_trans (not_lt.mp hlt) (ih hr x hx2)

/-! The change count of the guarded claim UPDATE. -/

theorem countP_claim_eq_one : ∀ (jobs : List Job), (jobs.map Job.id).Nodup →
    ∀ c ∈ jobs, claimGuard c = true →
    jobs.countP (fun j => j.id == c.id && claimGuard j) = 1 := by
  intro jobs
  induction jobs with
  | nil => intro _ c hc; simp at hc
  | cons j rest ih =>
    intro hnd c hc hg
    have hnd' : (rest.map Job.id).Nodup := (List.nodup_cons.mp hnd).2
    have hjid : j.id ∉ rest.map Job.id := (List.nodup_cons.mp hnd).1
    rcases List.mem_cons.mp hc with rfl | hcr
    · rw [List.countP_cons]
      have hzero : rest.countP (fun x => x.id == c.id && claimGuard x) = 0 := by
        apply List.countP_eq_zero.mpr
        intro x hx
        simp only [Bool.and_eq_true, beq_iff_eq, not_and]
        intro hxid
        exact absurd (hxid ▸ List.mem_map_of_mem Job.id hx) hjid
      simp [hzero, hg]
    · rw [List.countP_cons]
      have hj : (j.id == c.id && claimGuard j) = false := by
        simp only [Bool.and_eq_false_iff, beq_eq_false_iff_ne, ne_eq]
        left
        intro hjc
        exact absurd (hjc ▸ List.mem_map_of_mem Job.id hcr) hjid
      simp [hj, ih hnd' c hcr hg]

/-! Structural facts about the claim transaction. -/

theorem claimTx_of_no_eligible {now : ℚ} {jobs : List Job}
    (h : ∀ j ∈ jobs, eligible now j = false) : claimTx now jobs = (jobs, none) := by
  have hfil : jobs.filter (eligible now) = [] := by
    apply List.filter_eq_nil_iff.mpr
    intro j hj
    simp [h j hj]
  simp [claimTx, hfil, minByCreated]

theorem claimTx_some_candidate {now : ℚ} {jobs : List Job}
    (hnd : (jobs.map Job.id).Nodup) {c : Job}
    (hmin : minByCreated (jobs.filter (eligible now)) = some c) :
    c ∈ jobs ∧ eligible now c = true ∧
      claimTx now jobs = (jobs.map (claimRow now c.id), some c.id) := by
  have hcf : c ∈ jobs.filter (eligible now) := minByCreated_mem hmin
  have hcj : c ∈ jobs := List.mem_of_mem_filter hcf
  have hce : eligible now c = true := List.of_mem_filter hcf
  refine ⟨hcj, hce, ?_⟩
  have hcount := countP_claim_eq_one jobs hnd c hcj (claimGuard_of_eligible hce)
  simp [claimTx, hmin, hcount]

theorem claimTx_fst_cases (now : ℚ) (jobs : List Job) :
    (claimTx now jobs).1 = jobs ∨
      ∃ c, minByCreated (jobs.filter (eligible now)) = some c ∧
        (claimTx now jobs).1 = jobs.map (claimRow now c.id) := by
  cases hmin : minByCreated (jobs.filter (eligible now)) with
  | none => left; simp [claimTx, hmin]
  | some c =>
    right
    refine ⟨c, rfl, ?_⟩
    by_cases hcnt : jobs.countP (fun j => j.id == c.id && claimGuard j) = 1 <;>
      simp [claimTx, hmin, hcnt]

/-! Pointwise mapping principle for observational statements. -/

theorem forall2_map_map {α β γ : Type} {r : β → γ → Prop} (g : α → β) (f : α → γ) :
    ∀ (l : List α), (∀ x ∈ l, r (g x) (f x)) → List.Forall₂ r (l.map g) (l.map f) := by
  intro l
  induction l with
  | nil => intro _; simp
  | cons a t ih =>
    intro h
    simp only [List.map_cons]
    exact List.Forall₂.cons (h a (List.mem_cons_self a t))
      (ih fun x hx => h x (List.mem_cons_of_mem a hx))

theorem forall2_map_self {r : Job → Job → Prop} (f : Job → Job) (l : List Job)
    (h : ∀ x ∈ l, r x (f x)) : List.Forall₂ r l (l.map f) := by
  have := forall2_map_map id f l (fun x hx => h x hx)
  simpa using this

/-! Claim theorems. -/

/-- Claim C1: on every execution failure of a claimed job and for every stale
job handled by the recovery scan, with post-increment attempts a, the job
transitions to dead exactly when a is at least max_retries, and to failed for
every smaller a. -/
theorem dead_letter_boundary (cfg : Option ℚ) (now : ℚ) (e : String) (j : Job) :
    ((failureUpdate cfg now e j).state = .dead ↔
        (((j.attempts + 1 : Nat) : Int) ≥ j.max_retries)) ∧
    ((failureUpdate cfg now e j).state = .failed ↔
        (((j.attempts + 1 : Nat) : Int) < j.max_retries)) ∧
    ((recoverJob cfg now j).state = .dead ↔
        (((j.attempts + 1 : Nat) : Int) ≥ j.max_retries)) ∧
    ((recoverJob cfg now j).state = .failed ↔
        (((j.attempts + 1 : Nat) : Int) < j.max_retries)) := by
  by_cases h : (((j.attempts + 1 : Nat) : Int) ≥ j.max_retries)
  · simp only [failureUpdate, recoverJob]
    rw [if_pos h, if_pos h]
    simp [h, not_lt.mpr h]
    omega
  · simp only [failureUpdate, recoverJob]
    rw [if_neg h, if_neg h]
    simp [h, not_le.mp h]
    omega

/-- Claim C2, counterexample: with the stored backoff-base parsing to 0, the
claim predicts available_at = now + 0 ^ 1 = now, but the program coerces the
falsy parse result to 2 and schedules the retry at now + 2. -/
theorem backoff_base_cex :
    (failureUpdate (some 0) 0 "error" jPend).state = JState.failed ∧
    (failureUpdate (some 0) 0 "error" jPend).available_at =
      some ((0 : ℚ) + effBackoffBase (some 0) ^ (jPend.attempts + 1)) ∧
    (failureUpdate (some 0) 0 "error" jPend).available_at ≠
      some ((0 : ℚ) + specBackoffBase (some 0) ^ (jPend.attempts + 1)) := by
  norm_num [failureUpdate, jPend, effBackoffBase, specBackoffBase]

/-- Claim C2 (amended): whenever a failure transition lands in failed, the new
available_at is now + b ^ a seconds with a the post-increment attempt count
and b the parsed backoff-base when that parse is a nonzero number, and 2
otherwise (key absent, unparseable, or parsing to 0); this holds for both the
worker loop and the recovery scan. -/
theorem backoff_formula (cfg : Option ℚ) (now : ℚ) (e : String) (j : Job)
    (h : (((j.attempts + 1 : Nat) : Int) < j.max_retries)) :
    (failureUpdate cfg now e j).state = .failed ∧
    (failureUpdate cfg now e j).available_at =
      some (now + effBackoffBase cfg ^ (j.attempts + 1)) ∧
    (recoverJob cfg now j).state = .failed ∧
    (recoverJob cfg now j).available_at =
      some (now + effBackoffBase cfg ^ (j.attempts + 1)) ∧
    effBackoffBase none = 2 := by
  have h' : ¬ (((j.attempts + 1 : Nat) : Int) ≥ j.max_retries) := not_le.mpr h
  simp only [failureUpdate, recoverJob]
  rw [if_neg h', if_neg h']
  simp [effBackoffBase]

/-- Witness for backoff_formula on a fresh pending job with the key absent. -/
theorem backoff_formula_witness :
    (((jPend.attempts + 1 : Nat) : Int) < jPend.max_retries) ∧
    ((failureUpdate none 0 "error" jPend).state = .failed ∧
     (failureUpdate none 0 "error" jPend).available_at =
        some ((0 : ℚ) + effBackoffBase none ^ (jPend.attempts + 1)) ∧
     (recoverJob none 0 jPend).state = .failed ∧
     (recoverJob none 0 jPend).available_at =
        some ((0 : ℚ) + effBackoffBase none ^ (jPend.attempts + 1)) ∧
     effBackoffBase none = 2) :=
  ⟨by decide, backoff_formula none 0 "error" jPend (by decide)⟩

/-- Claim C8: a submission payload lacking a command field is rejected with a
synchronous error and the job table is left unchanged. -/
theorem missing_command_rejected (cfgMR : Option Int) (now : ℚ) (genId : String)
    (p : Payload) (jobs : List Job) (h : p.command = none) :
    enqueue cfgMR now genId p jobs = (jobs, some "Job must include command") := by
  simp [enqueue, h]

/-- Witness for missing_command_rejected on the command-less payload. -/
theorem missing_command_rejected_witness :
    pNoCmd.command = none ∧
    enqueue none 0 "gen" pNoCmd [] = ([], some "Job must include command") :=
  ⟨rfl, missing_command_rejected none 0 "gen" pNoCmd [] rfl⟩

/-- Claim C10, counterexample: after setting the max-retries configuration
key to 0, a payload without max_retries is accepted and the created job has
max_retries 0, so a submission can create a job whose max_retries is 0. -/
theorem default_max_retries_cex :
    (enqueue (some 0) 0 "gen" pPlain []).2 = none ∧
    (enqueue (some 0) 0 "gen" pPlain []).1.map Job.max_retries = [0] := by
  decide

/-- Claim C10 (amended): a payload whose max_retries is absent or 0 takes the
created job's max_retries from the parsed configured max-retries key, 3 when
the key is absent; the created value is 0 exactly when the configured key
parses to 0 (so the configuration seeded at initialization, 3, never yields
a job with max_retries 0, but an operator who sets the key to 0 does). -/
theorem default_max_retries (cfgMR : Option Int) (now : ℚ) (genId : String)
    (p : Payload) (jobs : List Job)
    (hmr : p.max_retries = none ∨ p.max_retries = some 0)
    (hsucc : (enqueue cfgMR now genId p jobs).2 = none) :
    ∃ j, (enqueue cfgMR now genId p jobs).1 = jobs ++ [j] ∧
      j.max_retries = cfgMR.getD 3 ∧
      (j.max_retries = 0 ↔ cfgMR = some 0) := by
  have hmr' : enqueueMR cfgMR p = cfgMR.getD 3 := by
    rcases hmr with hm | hm <;> simp [enqueueMR, hm]
  have hiff : cfgMR.getD 3 = 0 ↔ cfgMR = some 0 := by
    cases cfgMR with
    | none => simp
    | some v => simp
  rcases hc : p.command with _ | c
  · simp [enqueue, hc] at hsucc
  · by_cases hce : c = ""
    · simp [enqueue, hc, hce] at hsucc
    · by_cases hdup : jobs.any (fun j => j.id == enqueueId genId p) = true
      · simp [enqueue, hc, hce, hdup] at hsucc
      · refine ⟨{ id := enqueueId genId p, command := c, state := .pending,
                  attempts := 0, max_retries := enqueueMR cfgMR p,
                  created_at := now, updated_at := now,
                  available_at := some now, last_error := none }, ?_, ?_, ?_⟩
        · simp [enqueue, hc, hce, hdup]
        · exact hmr'
        · rw [hmr']
          exact hiff

/-- Witness for default_max_retries with the key absent. -/
theorem default_max_retries_witness :
    (pPlain.max_retries = none ∨ pPlain.max_retries = some 0) ∧
    (∃ j, (enqueue none 0 "gen" pPlain []).1 = [] ++ [j] ∧
      j.max_retries = (none : Option Int).getD 3 ∧
      (j.max_retries = 0 ↔ (none : Option Int) = some 0)) :=
  ⟨Or.inl rfl, default_max_retries none 0 "gen" pPlain [] (Or.inl rfl) (by decide)⟩

/-! Terminal rows are untouched by claim, worker and recovery operations. -/

theorem preserve_claimTx (now : ℚ) (jobs : List Job) :
    List.Forall₂ (fun j j2 => terminal j = true → j2 = j) jobs ((claimTx now jobs).1) := by
  rcases claimTx_fst_cases now jobs with h | ⟨c, _, h⟩
  · rw [h]
    exact List.forall₂_same.mpr (fun x _ _ => rfl)
  · rw [h]
    exact forall2_map_self _ _ (fun x _ ht => claimRow_of_terminal ht)

theorem preserve_recover (cfg : Option ℚ) (now s : ℚ) (jobs : List Job) :
    List.Forall₂ (fun j j2 => terminal j = true → j2 = j) jobs (recover cfg now s jobs) := by
  simp only [recover, recoverScan]
  exact forall2_map_self _ _ (fun x _ ht => by simp [staleP_of_terminal ht])

theorem preserve_workerStep (cfg : Option ℚ) (now : ℚ) (code : Int) (e : String)
    (jobs : List Job) (hnd : (jobs.map Job.id).Nodup) :
    List.Forall₂ (fun j j2 => terminal j = true → j2 = j) jobs
      (workerStep cfg now code e jobs) := by
  rcases h : claimTx now jobs with ⟨js1, r⟩
  cases r with
  | none =>
    simp only [workerStep, h]
    have hj : js1 = (claimTx now jobs).1 := by rw [h]
    rw [hj]
    exact preserve_claimTx now jobs
  | some cid =>
    simp only [workerStep, h]
    cases hmin : minByCreated (jobs.filter (eligible now)) with
    | none =>
      rw [claimTx_of_no_eligible (fun j hj => by
        by_contra hne
        have : j ∈ jobs.filter (eligible now) :=
          List.mem_filter.mpr ⟨hj, by simp at hne; simp [hne]⟩
        rw [minByCreated_eq_none.mp hmin] at this
        simp at this)] at h
      simp at h
    | some c =>
      obtain ⟨hcj, hce, htx⟩ := claimTx_some_candidate hnd hmin
      rw [htx] at h
      obtain ⟨hjs, hcid⟩ : js1 = jobs.map (claimRow now c.id) ∧ cid = c.id := by
        constructor <;> [skip; skip] <;> injection h with h1 h2 <;>
          first
          | exact h1.symm
          | exact (Option.some.injEq _ _ ▸ h2).symm
      subst hjs
      rw [List.map_map]
      apply forall2_map_self
      intro x hx ht
      have hxc : (x.id == cid) = false := by
        rw [beq_eq_false_iff_ne]
        intro hid
        have hxeq : x = c := List.inj_on_of_nodup_map hnd hx hcj (hcid ▸ hid)
        rw [hxeq] at ht
        rw [eligible_of_terminal ht] at hce
        exact absurd hce (by simp)
      simp only [Function.comp_apply, claimRow_of_terminal ht, hxc]
      simp

theorem dlqRetry_pointwise {now : ℚ} {rid : String} {jobs js : List Job}
    (hdlq : dlqRetry now rid jobs = some js) :
    List.Forall₂ (fun j j2 =>
      (j.id = rid → j2 = dlqRetryRow now rid j) ∧ (j.id ≠ rid → j2 = j)) jobs js := by
  by_cases hany : jobs.any (fun j => j.id == rid) = true
  · rw [dlqRetry, if_pos hany, Option.some.injEq] at hdlq
    subst hdlq
    apply forall2_map_self
    intro x _
    exact ⟨fun _ => rfl, fun hne => by simp [dlqRetryRow, hne]⟩
  · rw [dlqRetry, if_neg hany] at hdlq
    simp at hdlq

theorem dlqRetryRow_match {now : ℚ} {rid : String} {j : Job} (hid : j.id = rid) :
    (dlqRetryRow now rid j).state = .pending ∧ (dlqRetryRow now rid j).attempts = 0 := by
  simp [dlqRetryRow, hid]

theorem enqueue_appends (cfgMR : Option Int) (now : ℚ) (genId : String)
    (p : Payload) (jobs : List Job) :
    ∃ tail, (enqueue cfgMR now genId p jobs).1 = jobs ++ tail := by
  rcases hc : p.command with _ | c
  · exact ⟨[], by simp [enqueue, hc]⟩
  · by_cases hce : c = ""
    · exact ⟨[], by simp [enqueue, hc, hce]⟩
    · by_cases hdup : jobs.any (fun j => j.id == enqueueId genId p) = true
      · exact ⟨[], by simp [enqueue, hc, hce, hdup]⟩
      · refine ⟨[{ id := enqueueId genId p, command := c, state := .pending, attempts := 0, max_retries := enqueueMR cfgMR p, created_at := now, updated_at := now, available_at := some now, last_error := none }], ?_⟩
        simp [enqueue, hc, hce, hdup]

/-- Claim C4, counterexample: dlq retry carries no state guard, so invoking
it with the id of a completed job mutates that job, resetting it to pending
with attempts 0. -/
theorem terminal_mutation_cex :
    jDone.state = JState.completed ∧
    dlqRetry 1 "d" [jDone] = some [dlqRetryRow 1 "d" jDone] ∧
    (dlqRetryRow 1 "d" jDone).state = JState.pending ∧
    (dlqRetryRow 1 "d" jDone).attempts = 0 ∧
    dlqRetry 1 "d" [jDone] ≠ some [jDone] := by
  refine ⟨rfl, by decide, by decide, by decide, by decide⟩

/-- Claim C4 (amended): no operation other than dlq retry mutates a job in a
terminal state — claim, worker iteration and recovery leave terminal rows
unchanged and submission only appends — but dlq retry resets any existing
job matched by id, whatever its state (completed included, not only dead),
to pending with attempts 0. -/
theorem terminal_mutation (cfg : Option ℚ) (now s : ℚ) (code : Int)
    (e rid genId : String) (cfgMR : Option Int) (p : Payload)
    (jobs js : List Job) (hnd : (jobs.map Job.id).Nodup)
    (hdlq : dlqRetry now rid jobs = some js) :
    List.Forall₂ (fun j j2 => terminal j = true → j2 = j) jobs ((claimTx now jobs).1) ∧
    List.Forall₂ (fun j j2 => terminal j = true → j2 = j) jobs (recover cfg now s jobs) ∧
    List.Forall₂ (fun j j2 => terminal j = true → j2 = j) jobs
      (workerStep cfg now code e jobs) ∧
    (∃ tail, (enqueue cfgMR now genId p jobs).1 = jobs ++ tail) ∧
    List.Forall₂ (fun j j2 =>
      (j.id = rid → j2 = dlqRetryRow now rid j) ∧ (j.id ≠ rid → j2 = j)) jobs js ∧
    (∀ j : Job, j.id = rid →
      (dlqRetryRow now rid j).state = .pending ∧ (dlqRetryRow now rid j).attempts = 0) :=
  ⟨preserve_claimTx now jobs, preserve_recover cfg now s jobs,
   preserve_workerStep cfg now code e jobs hnd,
   enqueue_appends cfgMR now genId p jobs, dlqRetry_pointwise hdlq,
   fun _ hid => dlqRetryRow_match hid⟩

/-- Witness for terminal_mutation on a two-row table holding a completed and
a dead job, retrying the dead one. -/
theorem terminal_mutation_witness :
    (([jDone, jDead].map Job.id).Nodup ∧
      dlqRetry 1 "e" [jDone, jDead] = some [jDone, dlqRetryRow 1 "e" jDead]) ∧
    (List.Forall₂ (fun j j2 => terminal j = true → j2 = j) [jDone, jDead]
        ((claimTx 1 [jDone, jDead]).1) ∧
     List.Forall₂ (fun j j2 => terminal j = true → j2 = j) [jDone, jDead]
        (recover none 1 0 [jDone, jDead]) ∧
     List.Forall₂ (fun j j2 => terminal j = true → j2 = j) [jDone, jDead]
        (workerStep none 1 0 "" [jDone, jDead]) ∧
     (∃ tail, (enqueue none 1 "gen" pPlain [jDone, jDead]).1 = [jDone, jDead] ++ tail) ∧
     List.Forall₂ (fun j j2 =>
        (j.id = "e" → j2 = dlqRetryRow 1 "e" j) ∧ (j.id ≠ "e" → j2 = j))
        [jDone, jDead] [jDone, dlqRetryRow 1 "e" jDead] ∧
     (∀ j : Job, j.id = "e" →
        (dlqRetryRow 1 "e" j).state = .pending ∧ (dlqRetryRow 1 "e" j).attempts = 0)) :=
  ⟨⟨by decide, by decide⟩,
   terminal_mutation none 1 0 0 "" "e" "gen" none pPlain [jDone, jDead]
     [jDone, dlqRetryRow 1 "e" jDead] (by decide) (by decide)⟩

/-- Claim C3: one claim transaction selects the oldest eligible job (pending,
or failed with available_at at or before now), conditionally updates it to
processing guarded on its state still being pending or failed, and returns
its id exactly when that update affects one row; with no eligible job it
reports no claim and leaves the table unchanged, and a failed job whose
available_at is in the future is never claimed. -/
theorem claim_protocol (now : ℚ) (jobs : List Job)
    (hnd : (jobs.map Job.id).Nodup) :
    ((∀ j ∈ jobs, eligible now j = false) → claimTx now jobs = (jobs, none)) ∧
    ((claimTx now jobs).2 = none → (claimTx now jobs).1 = jobs) ∧
    (∀ c, minByCreated (jobs.filter (eligible now)) = some c →
      c ∈ jobs ∧ eligible now c = true ∧
      (∀ x ∈ jobs, eligible now x = true → c.created_at ≤ x.created_at) ∧
      jobs.countP (fun j => j.id == c.id && claimGuard j) = 1 ∧
      claimTx now jobs = (jobs.map (claimRow now c.id), some c.id) ∧
      claimRow now c.id c = { c with state := .processing, updated_at := now } ∧
      { c with state := .processing, updated_at := now } ∈ (claimTx now jobs).1) ∧
    (∀ j ∈ jobs, j.state = .failed →
      (∀ t, j.available_at = some t → now < t) → (claimTx now jobs).2 ≠ some j.id) := by
  refine ⟨fun h => claimTx_of_no_eligible h, ?_, ?_, ?_⟩
  · intro h2
    cases hmin : minByCreated (jobs.filter (eligible now)) with
    | none => simp [claimTx, hmin]
    | some c =>
      obtain ⟨_, _, htx⟩ := claimTx_some_candidate hnd hmin
      rw [htx] at h2
      simp at h2
  · intro c hmin
    obtain ⟨hcj, hce, htx⟩ := claimTx_some_candidate hnd hmin
    have hg := claimGuard_of_eligible hce
    have hrow : claimRow now c.id c = { c with state := .processing, updated_at := now } :=
      claimRow_state_of_guard rfl hg
    refine ⟨hcj, hce, ?_, countP_claim_eq_one jobs hnd c hcj hg, htx, hrow, ?_⟩
    · intro x hx hex
      exact minByCreated_le hmin x (List.mem_filter.mpr ⟨hx, hex⟩)
    · rw [htx]
      exact hrow ▸ List.mem_map_of_mem (claimRow now c.id) hcj
  · intro j hj hjf hfut hsome
    have hnel : eligible now j = false := by
      rcases hav : j.available_at with _ | t
      · simp [eligible, hjf, availableLe, hav]
      · have hlt := hfut t hav
        simp [eligible, hjf, availableLe, hav, not_le.mpr hlt]
    cases hmin : minByCreated (jobs.filter (eligible now)) with
    | none =>
      rw [claimTx, hmin] at hsome
      simp at hsome
    | some c =>
      obtain ⟨hcj, hce, htx⟩ := claimTx_some_candidate hnd hmin
      rw [htx] at hsome
      simp only [Option.some.injEq] at hsome
      have hcje : c = j := List.inj_on_of_nodup_map hnd hcj hj hsome
      rw [hcje, hnel] at hce
      exact absurd hce (by simp)

/-- Witness for claim_protocol on a two-row table: a pending job of
creation time 0 and a failed job whose retry window opens at 2, observed
at time 1. -/
theorem claim_protocol_witness :
    (([jPend, jFailFuture].map Job.id).Nodup) ∧
    (((∀ j ∈ [jPend, jFailFuture], eligible 1 j = false) →
        claimTx 1 [jPend, jFailFuture] = ([jPend, jFailFuture], none)) ∧
     ((claimTx 1 [jPend, jFailFuture]).2 = none →
        (claimTx 1 [jPend, jFailFuture]).1 = [jPend, jFailFuture]) ∧
     (∀ c, minByCreated ([jPend, jFailFuture].filter (eligible 1)) = some c →
        c ∈ [jPend, jFailFuture] ∧ eligible 1 c = true ∧
        (∀ x ∈ [jPend, jFailFuture], eligible 1 x = true → c.created_at ≤ x.created_at) ∧
        [jPend, jFailFuture].countP (fun j => j.id == c.id && claimGuard j) = 1 ∧
        claimTx 1 [jPend, jFailFuture] = ([jPend, jFailFuture].map (claimRow 1 c.id), some c.id) ∧
        claimRow 1 c.id c = { c with state := .processing, updated_at := 1 } ∧
        { c with state := .processing, updated_at := 1 } ∈ (claimTx 1 [jPend, jFailFuture]).1) ∧
     (∀ j ∈ [jPend, jFailFuture], j.state = .failed →
        (∀ t, j.available_at = some t → (1 : ℚ) < t) →
        (claimTx 1 [jPend, jFailFuture]).2 ≠ some j.id)) :=
  ⟨by decide, claim_protocol 1 [jPend, jFailFuture] (by decide)⟩

/-- Claim C5, counterexample: a processing job whose updated_at 0 is
strictly older than now minus the staleness threshold (2 - 1 = 1) and that
stays below the dead-letter boundary is reset to failed by the recovery
scan with its last_error left untouched — the failed outcome records no
synthetic last_error, contradicting the claim that both outcomes do. -/
theorem recovery_last_error_cex :
    jProc.state = JState.processing ∧
    jProc.updated_at < (2 : ℚ) - 1 ∧
    (recover none 2 1 [jProc]).map Job.state = [JState.failed] ∧
    (recover none 2 1 [jProc]).map Job.last_error = [none] := by
  have hlt : ¬ (((jProc.attempts + 1 : Nat) : Int) ≥ jProc.max_retries) := by
    norm_num [jProc]
  have hrec : recover none 2 1 [jProc] = [recoverJob none 2 jProc] := by
    simp [recover, recoverScan, staleP, jProc]
  refine ⟨rfl, by norm_num [jProc], ?_, ?_⟩ <;>
    rw [hrec] <;>
    simp only [recoverJob, List.map_cons, List.map_nil] <;>
    rw [if_neg hlt] <;>
    simp [jProc]

/-- Claim C5 (amended): every processing row whose updated_at is older than
now minus the staleness threshold is selected by one run of the recovery
scan and undergoes the failure transition: attempts is incremented, the row
moves to dead or to failed by the dead-letter boundary, the synthetic
last_error stale-processing-recovered is recorded only in the dead outcome,
and the failed outcome gets available_at = now + base ^ attempts with
last_error left unchanged. -/
theorem recovery_transition (cfg : Option ℚ) (now s : ℚ) (jobs : List Job)
    (j : Job) (hproc : j.state = .processing) (hold : j.updated_at < now - s) :
    staleP (now - s) j = true ∧
    (recoverJob cfg now j).attempts = j.attempts + 1 ∧
    ((recoverJob cfg now j).state = .dead ↔
        (((j.attempts + 1 : Nat) : Int) ≥ j.max_retries)) ∧
    ((recoverJob cfg now j).state = .dead →
        (recoverJob cfg now j).last_error = some "stale-processing-recovered") ∧
    ((recoverJob cfg now j).state = .failed →
        (recoverJob cfg now j).last_error = j.last_error ∧
        (recoverJob cfg now j).available_at =
          some (now + effBackoffBase cfg ^ (j.attempts + 1))) ∧
    List.Forall₂ (fun x x2 => (staleP (now - s) x = true → x2 = recoverJob cfg now x) ∧
      (staleP (now - s) x = false → x2 = x)) jobs (recover cfg now s jobs) := by
  have hst : staleP (now - s) j = true := by
    simp [staleP, hproc, le_of_lt hold]
  have htab : List.Forall₂ (fun x x2 => (staleP (now - s) x = true → x2 = recoverJob cfg now x) ∧
      (staleP (now - s) x = false → x2 = x)) jobs (recover cfg now s jobs) := by
    simp only [recover, recoverScan]
    apply forall2_map_self
    intro x _
    constructor <;> intro hx <;> simp [hx]
  by_cases h : (((j.attempts + 1 : Nat) : Int) ≥ j.max_retries)
  · refine ⟨hst, ?_, ?_, ?_, ?_, htab⟩ <;>
      simp only [recoverJob] <;> rw [if_pos h] <;> simp [h] <;> omega
  · refine ⟨hst, ?_, ?_, ?_, ?_, htab⟩ <;>
      simp only [recoverJob] <;> rw [if_neg h] <;> simp [h] <;> omega

/-- Witness for recovery_transition on a processing job last touched at
time 0, observed at time 2 with a one-second staleness threshold, so
strictly older than the cutoff. -/
theorem recovery_transition_witness :
    (jProc.state = .processing ∧ jProc.updated_at < (2 : ℚ) - 1) ∧
    (staleP ((2 : ℚ) - 1) jProc = true ∧
     (recoverJob none 2 jProc).attempts = jProc.attempts + 1 ∧
     ((recoverJob none 2 jProc).state = .dead ↔
        (((jProc.attempts + 1 : Nat) : Int) ≥ jProc.max_retries)) ∧
     ((recoverJob none 2 jProc).state = .dead →
        (recoverJob none 2 jProc).last_error = some "stale-processing-recovered") ∧
     ((recoverJob none 2 jProc).state = .failed →
        (recoverJob none 2 jProc).last_error = jProc.last_error ∧
        (recoverJob none 2 jProc).available_at =
          some ((2 : ℚ) + effBackoffBase none ^ (jProc.attempts + 1))) ∧
     List.Forall₂ (fun x x2 => (staleP ((2 : ℚ) - 1) x = true → x2 = recoverJob none 2 x) ∧
        (staleP ((2 : ℚ) - 1) x = false → x2 = x)) [jProc] (recover none 2 1 [jProc])) :=
  ⟨⟨rfl, by simp [jProc]⟩,
   recovery_transition none 2 1 [jProc] jProc rfl (by simp [jProc])⟩

/-- Claim C6: the recovery scan is idempotent for a fixed instant and
threshold — every row it touched is no longer processing afterwards, so a
second run selects nothing and changes nothing. -/
theorem recovery_idempotent (cfg : Option ℚ) (now s : ℚ) (jobs : List Job) :
    (∀ j2 ∈ recover cfg now s jobs, staleP (now - s) j2 = false) ∧
    (recover cfg now s jobs).filter (staleP (now - s)) = [] ∧
    recover cfg now s (recover cfg now s jobs) = recover cfg now s jobs := by
  have hrow : ∀ j : Job,
      staleP (now - s) (if staleP (now - s) j then recoverJob cfg now j else j) = false := by
    intro j
    by_cases h : staleP (now - s) j = true
    · rw [if_pos h]
      exact staleP_recoverJob cfg now _ j
    · rw [if_neg h]
      simpa using h
  have hmem : ∀ j2 ∈ recover cfg now s jobs, staleP (now - s) j2 = false := by
    intro j2 hj2
    simp only [recover, recoverScan, List.mem_map] at hj2
    obtain ⟨x, _, rfl⟩ := hj2
    exact hrow x
  refine ⟨hmem, ?_, ?_⟩
  · exact List.filter_eq_nil_iff.mpr (fun a ha => by simp [hmem a ha])
  · simp only [recover, recoverScan, List.map_map]
    apply List.map_congr_left
    intro a _
    simp only [Function.comp_apply]
    rw [if_neg (by simp [hrow a])]

/-! Attempt-count accounting of each operation. -/

theorem failureUpdate_attempts (cfg : Option ℚ) (now : ℚ) (e : String) (j : Job) :
    (failureUpdate cfg now e j).attempts = j.attempts + 1 := by
  by_cases h : (((j.attempts + 1 : Nat) : Int) ≥ j.max_retries)
  · simp only [failureUpdate]
    rw [if_pos h]
  · simp only [failureUpdate]
    rw [if_neg h]

theorem recoverJob_attempts (cfg : Option ℚ) (now : ℚ) (j : Job) :
    (recoverJob cfg now j).attempts = j.attempts + 1 := by
  by_cases h : (((j.attempts + 1 : Nat) : Int) ≥ j.max_retries)
  · simp only [recoverJob]
    rw [if_pos h]
  · simp only [recoverJob]
    rw [if_neg h]

theorem claimTx_attempts (now : ℚ) (jobs : List Job) :
    ((claimTx now jobs).1).map Job.attempts = jobs.map Job.attempts := by
  rcases claimTx_fst_cases now jobs with h | ⟨c, _, h⟩
  · rw [h]
  · rw [h, List.map_map]
    apply List.map_congr_left
    intro x _
    simp [claimRow_attempts]

theorem recover_attempts (cfg : Option ℚ) (now s : ℚ) (jobs : List Job) :
    (recover cfg now s jobs).map Job.attempts =
      jobs.map (fun x => if staleP (now - s) x then x.attempts + 1 else x.attempts) := by
  simp only [recover, recoverScan, List.map_map]
  apply List.map_congr_left
  intro x _
  simp only [Function.comp_apply]
  by_cases h : staleP (now - s) x = true
  · rw [if_pos h, if_pos h]
    exact recoverJob_attempts cfg now x
  · rw [if_neg h, if_neg h]

theorem dlqRetry_attempts {now : ℚ} {rid : String} {jobs js : List Job}
    (h : dlqRetry now rid jobs = some js) :
    js.map Job.attempts = jobs.map (fun x => if x.id == rid then 0 else x.attempts) := by
  by_cases hany : jobs.any (fun x => x.id == rid) = true
  · rw [dlqRetry, if_pos hany, Option.some.injEq] at h
    subst h
    rw [List.map_map]
    apply List.map_congr_left
    intro x _
    simp only [Function.comp_apply, dlqRetryRow]
    by_cases hid : (x.id == rid) = true
    · rw [if_pos hid, if_pos hid]
    · rw [if_neg hid, if_neg hid]
  · rw [dlqRetry, if_neg hany] at h
    simp at h

theorem workerStep_attempts (cfg : Option ℚ) (now : ℚ) (code : Int) (e : String)
    (jobs : List Job) :
    List.Forall₂ (fun a a2 => a2 = a ∨ a2 = a + 1) (jobs.map Job.attempts)
      ((workerStep cfg now code e jobs).map Job.attempts) := by
  rcases h : claimTx now jobs with ⟨js1, r⟩
  have hjs : js1 = (claimTx now jobs).1 := by rw [h]
  have h1 : js1.map Job.attempts = jobs.map Job.attempts := by
    rw [hjs, claimTx_attempts]
  cases r with
  | none =>
    simp only [workerStep, h]
    rw [h1]
    exact List.forall₂_same.mpr (fun x _ => Or.inl rfl)
  | some cid =>
    simp only [workerStep, h]
    rw [List.map_map, ← h1]
    apply forall2_map_map
    intro x _
    simp only [Function.comp_apply]
    by_cases hid : (x.id == cid) = true
    · rw [if_pos hid]
      simp only [execUpdate]
      by_cases hcode : code = 0
      · rw [if_pos hcode]
        exact Or.inl rfl
      · rw [if_neg hcode]
        exact Or.inr (failureUpdate_attempts cfg now e x)
    · rw [if_neg hid]
      exact Or.inl rfl

/-- Claim C7: a failure transition (worker failure or stale-job recovery)
adds exactly 1 to attempts; success, claim and the untouched rows of every
operation leave attempts unchanged; dlq retry sets the matched row's
attempts to exactly 0; and a worker iteration changes each row's attempts
by 0 or +1, so attempts never decreases outside dlq retry. -/
theorem attempts_accounting (cfg : Option ℚ) (now s : ℚ) (code : Int)
    (e rid : String) (jobs js : List Job) (j : Job)
    (hdlq : dlqRetry now rid jobs = some js) :
    (failureUpdate cfg now e j).attempts = j.attempts + 1 ∧
    (recoverJob cfg now j).attempts = j.attempts + 1 ∧
    (successUpdate now j).attempts = j.attempts ∧
    ((claimTx now jobs).1).map Job.attempts = jobs.map Job.attempts ∧
    (recover cfg now s jobs).map Job.attempts =
      jobs.map (fun x => if staleP (now - s) x then x.attempts + 1 else x.attempts) ∧
    js.map Job.attempts = jobs.map (fun x => if x.id == rid then 0 else x.attempts) ∧
    List.Forall₂ (fun a a2 => a2 = a ∨ a2 = a + 1) (jobs.map Job.attempts)
      ((workerStep cfg now code e jobs).map Job.attempts) :=
  ⟨failureUpdate_attempts cfg now e j, recoverJob_attempts cfg now j, rfl,
   claimTx_attempts now jobs, recover_attempts cfg now s jobs,
   dlqRetry_attempts hdlq, workerStep_attempts cfg now code e jobs⟩

/-- Witness for attempts_accounting: dlq retry of the dead job on a
completed-plus-dead table, with the other operations observed at time 1. -/
theorem attempts_accounting_witness :
    dlqRetry 1 "e" [jDone, jDead] = some [jDone, dlqRetryRow 1 "e" jDead] ∧
    ((failureUpdate none 1 "err" jPend).attempts = jPend.attempts + 1 ∧
     (recoverJob none 1 jPend).attempts = jPend.attempts + 1 ∧
     (successUpdate 1 jPend).attempts = jPend.attempts ∧
     ((claimTx 1 [jDone, jDead]).1).map Job.attempts = [jDone, jDead].map Job.attempts ∧
     (recover none 1 0 [jDone, jDead]).map Job.attempts =
       [jDone, jDead].map (fun x => if staleP ((1 : ℚ) - 0) x then x.attempts + 1 else x.attempts) ∧
     [jDone, dlqRetryRow 1 "e" jDead].map Job.attempts =
       [jDone, jDead].map (fun x => if x.id == "e" then 0 else x.attempts) ∧
     List.Forall₂ (fun a a2 => a2 = a ∨ a2 = a + 1) ([jDone, jDead].map Job.attempts)
       ((workerStep none 1 0 "err" [jDone, jDead]).map Job.attempts)) :=
  ⟨by decide,
   attempts_accounting none 1 0 0 "err" "e" [jDone, jDead]
     [jDone, dlqRetryRow 1 "e" jDead] jPend (by decide)⟩

theorem claimRounds_no_eligible (now : ℚ) : ∀ (n : Nat) (jobs : List Job),
    (∀ j ∈ jobs, eligible now j = false) →
    claimRounds now n jobs = (jobs, List.replicate n none) := by
  intro n
  induction n with
  | zero => intro jobs _; rfl
  | succ m ih =>
    intro jobs h
    simp only [claimRounds, claimTx_of_no_eligible h, ih jobs h, List.replicate_succ]

/-- Claim C9: with a single job in the table, any number n of claim
transactions — SQLite serialises the concurrent attempts of independent
workers into such a sequence of atomic transactions — yields exactly one
success: the first transaction claims the job and every later one observes
no eligible job, so exactly one worker ever holds the job in processing. -/
theorem claim_exclusive (now : ℚ) (n : Nat) (j : Job)
    (helig : eligible now j = true) (hn : 1 ≤ n) :
    (claimRounds now n [j]).2 = some j.id :: List.replicate (n - 1) none ∧
    ((claimRounds now n [j]).2).countP (fun r => r.isSome) = 1 := by
  obtain ⟨m, rfl⟩ : ∃ m, n = m + 1 := ⟨n - 1, (Nat.succ_pred_eq_of_pos hn).symm⟩
  have hg := claimGuard_of_eligible helig
  have hmin : minByCreated ([j].filter (eligible now)) = some j := by
    simp [helig, minByCreated]
  have hcnt : [j].countP (fun x => x.id == j.id && claimGuard x) = 1 := by
    simp [List.countP_cons, hg]
  have htx : claimTx now [j] = ([claimRow now j.id j], some j.id) := by
    simp [claimTx, hmin, hcnt]
  have hrow : claimRow now j.id j = { j with state := .processing, updated_at := now } :=
    claimRow_state_of_guard rfl hg
  have hnoel : ∀ x ∈ [claimRow now j.id j], eligible now x = false := by
    intro x hx
    rcases List.mem_singleton.mp hx with rfl
    rw [hrow]
    exact eligible_processing rfl
  have hlist : (claimRounds now (m + 1) [j]).2 = some j.id :: List.replicate m none := by
    simp only [claimRounds, htx, claimRounds_no_eligible now m _ hnoel]
  have hz : (List.replicate m (none : Option String)).countP (fun r => r.isSome) = 0 :=
    List.countP_eq_zero.mpr (fun a ha => by rw [List.eq_of_mem_replicate ha]; simp)
  constructor
  · rw [hlist]
    simp
  · rw [hlist, List.countP_cons, hz]
    simp

/-- Witness for claim_exclusive: three serialised claim attempts against a
single pending job. -/
theorem claim_exclusive_witness :
    (eligible 1 jPend = true ∧ 1 ≤ 3) ∧
    ((claimRounds 1 3 [jPend]).2 = some jPend.id :: List.replicate (3 - 1) none ∧
     ((claimRounds 1 3 [jPend]).2).countP (fun r => r.isSome) = 1) :=
  ⟨⟨by decide, by decide⟩, claim_exclusive 1 3 jPend (by decide) (by decide)⟩
